import Mathlib

/-! Squid memory pools, `src/mem/Pool.h`.

A shallow embedding of the pool registry `MemPools`, of the constants and
arithmetic helpers of `Pool.h`, and of the allocator contract
`MemImplementingAllocator`.

`Pool.h` defines inline: the helper `toKB`, the constants `MEM_PAGE_SIZE`,
`MEM_MIN_FREE`, `MEM_MAX_FREE`, the fields of `MemPools` with their default
member initialisers, and the bodies of `setIdleLimit` / `idleLimit`.  Those are
embedded from the header.  Every other member function is only declared there;
its embedding follows the specification text and is marked as such.
-/

namespace Squid

/-! ## Constants and arithmetic helpers (Pool.h:51-61) -/

/-- The constant `MEM_PAGE_SIZE` (Pool.h:57). -/
def MEM_PAGE_SIZE : Nat := 4096

/-- The constant `MEM_MIN_FREE` (Pool.h:59). -/
def MEM_MIN_FREE : Nat := 32

/-- Integer types the operand of `toKB` may have once the usual arithmetic
conversions with the `int` literals `1024` and `1` are done. -/
inductive CIntType where
  | unsignedT (bits : Nat)
  | signedT (bits : Nat)
  deriving DecidableEq, Repr

/-- Largest value of the type. -/
def CIntType.maxVal : CIntType → Int
  | .unsignedT w => 2 ^ w - 1
  | .signedT w => 2 ^ (w - 1) - 1

/-- Result of an arithmetic operation whose mathematical value is `n`, as
stored in the type: reduction modulo `2^bits` (for a signed type, into the
two's complement range). -/
def CIntType.wrap : CIntType → Int → Int
  | .unsignedT w, n => n % 2 ^ w
  | .signedT w, n => (n + 2 ^ (w - 1)) % 2 ^ w - 2 ^ (w - 1)

/-- The helper `toKB(size)`, Pool.h:54: `( (size + 1024 - 1) / 1024 )`.
The expression parses as `((size + 1024) - 1) / 1024`; both the addition and
the subtraction are machine operations in the type `T` of `size`, and `/` is
C division (truncation toward zero). -/
def toKB (T : CIntType) (size : Int) : Int :=
  (T.wrap (T.wrap (size + 1024) - 1)).tdiv 1024

/-! ## The registry `MemPools` (Pool.h:69-129) -/

/-- Modelled from the spec: `Mem::PoolMeter` (`mem/Meter.h` is not among the
sources).  Section 3 lists the content of a meter: allocated count, allocated
volume, in-use count and high-water mark; Scenario D also speaks of the frees
a total reflects, so the count of frees is kept next to the count of
allocations. -/
structure PoolMeter where
  allocCount : Nat
  freeCount : Nat
  savedCount : Nat
  allocVolume : Nat
  inuse : Int
  inuseHigh : Int
  deriving DecidableEq, Repr

/-- A meter on which nothing was recorded. -/
def PoolMeter.zero : PoolMeter :=
  { allocCount := 0, freeCount := 0, savedCount := 0, allocVolume := 0,
    inuse := 0, inuseHigh := 0 }

/-- Modelled from the spec: the `void *` of `alloc()` / `freeOne(void *)`
(Pool.h:147-148), named as section 9 suggests, by "small-integer slot
indices".  A chunked pool lends the slot `idx` of its chunk number `chunk`; a
direct pool lends a block of the system allocator, named by its address. -/
inductive Obj where
  | slot (chunk idx : Nat)
  | raw (addr : Nat)
  deriving DecidableEq, Repr

/-- Modelled from the spec: a chunk (section 3), "a contiguous memory region
holding a bounded number of same-size object slots and a per-chunk free-slot
list".  Slots are named by their index in the chunk. -/
structure MemChunk where
  capacity : Nat
  freeList : List Nat
  deriving DecidableEq, Repr

/-- Modelled from the spec: state of the chunked variant (section 4.3), whose
class is not among the sources: the chunk collection, the pool-level free-list
cache, the number of slots a new chunk gets and the size from which the cache
counts as "already large" (both are tunables, section 9). -/
structure ChunkedState where
  chunk_capacity : Nat
  cacheLimit : Nat
  chunks : List MemChunk
  freeCache : List Obj
  deriving DecidableEq, Repr

/-- Modelled from the spec: state of the direct variant (section 4.4), whose
class is not among the sources.  The pool retains nothing; `next` and `live`
stand for the system allocator it forwards to: the next fresh address and the
blocks of this pool not yet given back. -/
structure DirectState where
  next : Nat
  live : List Nat
  deriving DecidableEq, Repr

/-- Modelled from the spec: the subclasses of `MemImplementingAllocator`, none
of which is among the sources: "a closed set of variant implementations"
(section 9), chunked and direct (section 2). -/
inductive PoolImpl where
  | chunked (st : ChunkedState)
  | direct (st : DirectState)
  deriving DecidableEq, Repr

/-- The class `MemImplementingAllocator` (Pool.h:132-161): its fields `meter`,
`alloc_calls`, `free_calls`, `saved_calls`, `obj_size`; the label lives in the
base class `Mem::Allocator`; `impl` is the state of the concrete subclass. -/
structure MemImplementingAllocator where
  label : String
  meter : PoolMeter
  alloc_calls : Nat
  free_calls : Nat
  saved_calls : Nat
  obj_size : Nat
  impl : PoolImpl
  deriving DecidableEq, Repr

/-- The class `MemPools` (Pool.h:69-129): the public fields `pools` and
`defaultIsChunked` and the private field `idleLimit_` (an `ssize_t`). -/
structure MemPools where
  pools : List MemImplementingAllocator
  defaultIsChunked : Bool
  idleLimit_ : Int
  deriving DecidableEq, Repr

/-- A registry as its default member initialisers leave it (Pool.h:121-128):
no pool, `defaultIsChunked = false`, `idleLimit_ = (2 << 20)`. -/
def MemPools.fresh : MemPools :=
  { pools := [], defaultIsChunked := false, idleLimit_ := ((2 <<< 20 : Nat) : Int) }

/-- The member `setIdleLimit` (Pool.h:87): `{ idleLimit_ = newLimit; }`. -/
def MemPools.setIdleLimit (s : MemPools) (newLimit : Int) : MemPools :=
  { s with idleLimit_ := newLimit }

/-- The const member `idleLimit` (Pool.h:89): `{ return idleLimit_; }`.
The result is the returned value together with the registry after the call. -/
def MemPools.idleLimit (s : MemPools) : Int × MemPools :=
  (s.idleLimit_, s)

/-! ## Pool variants (declared in Pool.h, defined elsewhere) -/

/-- Number of slots lent out of a chunk. -/
def MemChunk.occupancy (c : MemChunk) : Nat := c.capacity - c.freeList.length

/-- Total slot capacity of the chunks created so far. -/
def ChunkedState.totalCapacity (st : ChunkedState) : Nat :=
  (st.chunks.map (fun c => c.capacity)).sum

/-- Number of slots sitting on the free lists of the chunks. -/
def ChunkedState.totalFree (st : ChunkedState) : Nat :=
  (st.chunks.map (fun c => c.freeList.length)).sum

/-- Modelled from the spec: the order of the chunk scan, "most-occupied
first" (section 4.3): the most occupied entry of a list of numbered chunks,
the earliest one among equally occupied entries. -/
def mostOccupied : List (Nat × MemChunk) → Option (Nat × MemChunk)
  | [] => none
  | x :: xs =>
    match mostOccupied xs with
    | none => some x
    | some y => if y.2.occupancy ≤ x.2.occupancy then some x else some y

/-- Modelled from the spec: the chunk scan of `allocate()` in section 4.3,
"scan chunks (most-occupied first, to keep low-occupancy chunks eligible for
release) for one with a free slot".  The result is the number of the chunk
found and the chunk. -/
def ChunkedState.findFreeChunk (st : ChunkedState) : Option (Nat × MemChunk) :=
  mostOccupied (st.chunks.enum.filter (fun ic => !ic.2.freeList.isEmpty))

/-- Modelled from the spec: `allocate()` of the chunked variant (section 4.3):
"pop from the pool's free-list cache if non-empty; else scan chunks for one
with a free slot and pop from its free list; else allocate a new chunk from
the system allocator, initialize its free list to all slots, and pop from it".
`none` is the fatal condition of section 7: no object can be produced. -/
def ChunkedState.allocate (st : ChunkedState) : Option (ChunkedState × Obj) :=
  match st.freeCache with
  | o :: rest => some ({ st with freeCache := rest }, o)
  | [] =>
    match st.findFreeChunk with
    | some (i, c) =>
      match c.freeList with
      | k :: fl =>
        some ({ st with chunks := st.chunks.set i { c with freeList := fl } }, Obj.slot i k)
      | [] => none
    | none =>
      match List.range st.chunk_capacity with
      | k :: fl =>
        some ({ st with
                  chunks := st.chunks ++ [{ capacity := st.chunk_capacity, freeList := fl }] },
              Obj.slot st.chunks.length k)
      | [] => none

/-- Modelled from the spec: "push directly onto the owning chunk's free list"
(section 4.3): the slot `k` goes onto the free list of chunk number `c`. -/
def pushFree (chunks : List MemChunk) (c k : Nat) : List MemChunk :=
  match chunks[c]? with
  | some ch => chunks.set c { ch with freeList := k :: ch.freeList }
  | none => chunks

/-- Modelled from the spec: `deallocate(ptr, aggressive)` of the chunked
variant (section 4.3): "if `aggressive` or the free-list cache is already
large, push directly onto the owning chunk's free list; otherwise push onto
the pool-level free-list cache".  The boolean result tells whether the object
went to the cache. -/
def ChunkedState.deallocate (st : ChunkedState) (o : Obj) (aggressive : Bool) :
    ChunkedState × Bool :=
  if aggressive || decide (st.cacheLimit ≤ st.freeCache.length) then
    match o with
    | Obj.slot c k => ({ st with chunks := pushFree st.chunks c k }, false)
    | Obj.raw _ => (st, false)
  else
    ({ st with freeCache := o :: st.freeCache }, true)

/-- Modelled from the spec: `allocate()` of the direct variant (section 4.4),
"calls the system allocator directly for each object". -/
def DirectState.allocate (st : DirectState) : DirectState × Obj :=
  ({ next := st.next + 1, live := st.next :: st.live }, Obj.raw st.next)

/-- Modelled from the spec: `deallocate()` of the direct variant (section
4.4), "calls the system deallocator directly". -/
def DirectState.deallocate (st : DirectState) (o : Obj) : DirectState :=
  match o with
  | Obj.raw a => { st with live := st.live.erase a }
  | Obj.slot _ _ => st

/-- Modelled from the spec: the synchronous meter update of section 4.5: the
in-use level moves by `d` and the high-water mark follows. -/
def PoolMeter.level (m : PoolMeter) (d : Int) : PoolMeter :=
  { m with inuse := m.inuse + d, inuseHigh := max m.inuseHigh (m.inuse + d) }

/-- Modelled from the spec: `MemImplementingAllocator::alloc()` (declared at
Pool.h:147, defined elsewhere), section 4.2: "increments alloc_calls;
delegates to the variant-specific `allocate()`; fatal if the underlying system
allocator cannot satisfy the request"; the meter is "updated synchronously on
every alloc/freeOne call" (section 4.5). -/
def MemImplementingAllocator.alloc (p : MemImplementingAllocator) :
    Option (MemImplementingAllocator × Obj) :=
  match p.impl with
  | PoolImpl.chunked st =>
    match st.allocate with
    | some (st1, o) =>
      some ({ p with alloc_calls := p.alloc_calls + 1, meter := p.meter.level 1,
                     impl := PoolImpl.chunked st1 }, o)
    | none => none
  | PoolImpl.direct st =>
    some ({ p with alloc_calls := p.alloc_calls + 1, meter := p.meter.level 1,
                   impl := PoolImpl.direct st.allocate.1 }, st.allocate.2)

/-- Modelled from the spec: `MemImplementingAllocator::freeOne(ptr)` (declared
at Pool.h:148, defined elsewhere), section 4.2: "increments free_calls; if
satisfied from cache without touching the system allocator, increments
saved_calls; delegates to variant-specific `deallocate(ptr, aggressive)`".
`aggressive` says whether the pool is over its idle budget at the call. -/
def MemImplementingAllocator.freeOne (p : MemImplementingAllocator) (o : Obj)
    (aggressive : Bool) : MemImplementingAllocator :=
  match p.impl with
  | PoolImpl.chunked st =>
    { p with free_calls := p.free_calls + 1,
             saved_calls := p.saved_calls + (if (st.deallocate o aggressive).2 then 1 else 0),
             meter := p.meter.level (-1),
             impl := PoolImpl.chunked (st.deallocate o aggressive).1 }
  | PoolImpl.direct st =>
    { p with free_calls := p.free_calls + 1, meter := p.meter.level (-1),
             impl := PoolImpl.direct (st.deallocate o) }

/-- Total slot capacity of the chunks a pool created so far. -/
def MemImplementingAllocator.totalCapacity (p : MemImplementingAllocator) : Nat :=
  match p.impl with
  | PoolImpl.chunked st => st.totalCapacity
  | PoolImpl.direct _ => 0

/-- Whether the object `o` is currently checked out of the pool `p`: for a
chunked pool, a slot of one of its chunks that is neither on the free list of
that chunk nor in the free-list cache; for a direct pool, a live block. -/
def MemImplementingAllocator.checkedOut (p : MemImplementingAllocator) (o : Obj) : Bool :=
  match p.impl, o with
  | PoolImpl.chunked st, Obj.slot c k =>
    (match st.chunks[c]? with
     | some ch => decide (k < ch.capacity) && !(ch.freeList.contains k)
     | none => false) && !(st.freeCache.contains o)
  | PoolImpl.direct st, Obj.raw a => st.live.contains a
  | _, _ => false

/-- Modelled from the spec: the tunables of pool construction, which the
header does not fix (section 9, "treat it as a tunable"): the number of slots
per chunk as a function of the object size, and the size from which the
free-list cache counts as large. -/
structure PoolTunables where
  chunkCapacity : Nat → Nat
  cacheLimit : Nat

/-- Modelled from the spec: the constructor `MemImplementingAllocator(aLabel,
aSize)` (declared at Pool.h:137) as run for the variant `isChunked` selects:
a pool without chunks, with zeroed counters and meter. -/
def MemImplementingAllocator.new (cfg : PoolTunables) (isChunked : Bool)
    (aLabel : String) (aSize : Nat) : MemImplementingAllocator :=
  { label := aLabel, meter := PoolMeter.zero, alloc_calls := 0, free_calls := 0,
    saved_calls := 0, obj_size := aSize,
    impl := if isChunked then
        PoolImpl.chunked { chunk_capacity := cfg.chunkCapacity aSize,
                           cacheLimit := cfg.cacheLimit, chunks := [], freeCache := [] }
      else PoolImpl.direct { next := 0, live := [] } }

/-- Whether the pool is of the chunked variant. -/
def MemImplementingAllocator.isChunked (p : MemImplementingAllocator) : Bool :=
  match p.impl with
  | PoolImpl.chunked _ => true
  | PoolImpl.direct _ => false

/-- Modelled from the spec: the lookup of `create`, "the existing pool for
this (label, size) pair if present" (section 4.1): the position in `pools` of
the first pool with the given label and object size, counted from `i`. -/
def findPool (label : String) (size : Nat) :
    List MemImplementingAllocator → Nat → Option Nat
  | [], _ => none
  | p :: ps, i =>
    if p.label = label ∧ p.obj_size = size then some i else findPool label size ps (i + 1)

/-- Modelled from the spec: `MemPools::create(label, objectSize)` (declared at
Pool.h:80, defined elsewhere), section 4.1: "returns the existing pool for
this (label, size) pair if present, else constructs a new one using the
currently configured chunking default".  The handle returned is the position
of the pool in `pools`. -/
def MemPools.create (cfg : PoolTunables) (s : MemPools) (label : String) (size : Nat) :
    MemPools × Nat :=
  match findPool label size s.pools 0 with
  | some i => (s, i)
  | none =>
    ({ s with pools := s.pools ++
          [MemImplementingAllocator.new cfg s.defaultIsChunked label size] },
     s.pools.length)

/-- Modelled from the spec: `MemPools::setDefaultPoolChunking(bool)` (declared
at Pool.h:119, defined elsewhere), section 4.1: "toggles whether newly created
pools default to the chunked strategy". -/
def MemPools.setDefaultPoolChunking (s : MemPools) (b : Bool) : MemPools :=
  { s with defaultIsChunked := b }

/-! ## Metering -/

/-- Modelled from the spec: the fold of one pool into a total (sections 3 and
4.1): the total takes in what the pool recorded since its last flush, `allocs`
allocations, `frees` frees and `saved` saved calls of objects of `objSize`
bytes. -/
def PoolMeter.absorb (t : PoolMeter) (allocs frees saved objSize : Nat) : PoolMeter :=
  { allocCount := t.allocCount + allocs,
    freeCount := t.freeCount + frees,
    savedCount := t.savedCount + saved,
    allocVolume := t.allocVolume + allocs * objSize,
    inuse := t.inuse + ((allocs : Int) - (frees : Int)),
    inuseHigh := max t.inuseHigh (t.inuse + ((allocs : Int) - (frees : Int))) }

/-- Modelled from the spec: `MemImplementingAllocator::flushMeters()`
(declared at Pool.h:141, defined elsewhere), the per-pool half of section 4.1:
the incremental counters are folded into the historical counts of the pool's
meter and reset, "while total/historical counters persist". -/
def MemImplementingAllocator.flushMeters (p : MemImplementingAllocator) :
    MemImplementingAllocator :=
  { p with
      meter := { p.meter with
        allocCount := p.meter.allocCount + p.alloc_calls,
        freeCount := p.meter.freeCount + p.free_calls,
        savedCount := p.meter.savedCount + p.saved_calls,
        allocVolume := p.meter.allocVolume + p.alloc_calls * p.obj_size },
      alloc_calls := 0, free_calls := 0, saved_calls := 0 }

/-- Modelled from the spec: `MemPools::flushMeters()` (declared at Pool.h:74,
defined elsewhere), section 4.1: "asks every pool to fold its Meter into the
process-wide total, then resets the pool's incremental counters".  The first
argument and the first result are the global `TheMeter` (Pool.h:66). -/
def MemPools.flushMeters (theMeter : PoolMeter) (s : MemPools) : PoolMeter × MemPools :=
  (s.pools.foldl
      (fun t p => t.absorb p.alloc_calls p.free_calls p.saved_calls p.obj_size) theMeter,
   { s with pools := s.pools.map MemImplementingAllocator.flushMeters })

/-! ## Call sequences on one pool -/

/-- One call on a pool: `alloc()`, or `freeOne(o)` made while the pool is
(`aggressive = true`) or is not over its idle budget. -/
inductive PoolCall where
  | alloc
  | freeOne (o : Obj) (aggressive : Bool)
  deriving DecidableEq, Repr

/-- Run a sequence of calls; `none` when an `alloc()` hit the fatal condition. -/
def runCalls (p : MemImplementingAllocator) : List PoolCall → Option MemImplementingAllocator
  | [] => some p
  | PoolCall.alloc :: cs =>
    match p.alloc with
    | some (p1, _) => runCalls p1 cs
    | none => none
  | PoolCall.freeOne o a :: cs => runCalls (p.freeOne o a) cs

/-- Whether every `freeOne` of the sequence is applied to an object that is
checked out of the pool when the call is made. -/
def wellUsed (p : MemImplementingAllocator) : List PoolCall → Bool
  | [] => true
  | PoolCall.alloc :: cs =>
    match p.alloc with
    | some (p1, _) => wellUsed p1 cs
    | none => true
  | PoolCall.freeOne o a :: cs => p.checkedOut o && wellUsed (p.freeOne o a) cs

/-- Number of `alloc()` calls in a sequence. -/
def allocCalls (cs : List PoolCall) : Nat :=
  (cs.filter (fun c => match c with | PoolCall.alloc => true | _ => false)).length

/-- Number of `freeOne()` calls in a sequence. -/
def freeCalls (cs : List PoolCall) : Nat :=
  (cs.filter (fun c => match c with | PoolCall.freeOne _ _ => true | _ => false)).length

/-! ## Predicates and sample data used by the theorems -/

/-- Smallest value of the type. -/
def CIntType.minVal : CIntType → Int
  | .unsignedT _ => 0
  | .signedT w => -(2 ^ (w - 1))

/-- Chunks of the pool have at least one slot (always so for a direct pool,
which has no chunks). -/
def MemImplementingAllocator.hasSlots (p : MemImplementingAllocator) : Prop :=
  match p.impl with
  | PoolImpl.chunked st => 0 < st.chunk_capacity
  | PoolImpl.direct _ => True

/-- Bookkeeping of a pool is consistent: the in-use count is the difference of
the call counters, and every slot of a chunked pool is either in use, on a
chunk free list or in the free-list cache. -/
def MemImplementingAllocator.consistent (p : MemImplementingAllocator) : Prop :=
  p.meter.inuse = (p.alloc_calls : Int) - (p.free_calls : Int) ∧
  match p.impl with
  | PoolImpl.chunked st =>
    p.meter.inuse + (st.totalFree : Int) + (st.freeCache.length : Int)
      = (st.totalCapacity : Int)
  | PoolImpl.direct _ => True

/-- Tunables used by the witnesses: 4 slots per chunk, cache large from 2. -/
def witnessTunables : PoolTunables := { chunkCapacity := fun _ => 4, cacheLimit := 2 }

/-- Registry used by the witnesses: one direct pool "X" of 64-byte objects. -/
def witnessRegistry : MemPools :=
  (MemPools.create witnessTunables MemPools.fresh "X" 64).1

/-- Calls used by the witnesses: three allocations, two frees, one more
allocation. -/
def witnessCalls : List PoolCall :=
  [PoolCall.alloc, PoolCall.alloc, PoolCall.alloc, PoolCall.freeOne (Obj.slot 0 1) false,
   PoolCall.freeOne (Obj.slot 0 0) true, PoolCall.alloc]

/-! Theorems. -/

/-! ## The idle limit -/

/-- C1: for every registry state and every limit value `n` (0 included),
`idleLimit()` after `setIdleLimit(n)` returns exactly `n`; the value set last
wins, whatever limit was set before. -/
theorem setIdleLimit_idleLimit (s : MemPools) (m n : Int) :
    (s.setIdleLimit n).idleLimit.1 = n ∧
    (s.setIdleLimit 0).idleLimit.1 = 0 ∧
    ((s.setIdleLimit m).setIdleLimit n).idleLimit.1 = n := by
  refine ⟨rfl, rfl, rfl⟩

/-- C2: on a registry left as its member initialisers set it, before any
`setIdleLimit` call, `idleLimit()` returns 2 MiB = 2 * 1024 * 1024 = 2097152
bytes. -/
theorem fresh_idleLimit :
    MemPools.fresh.idleLimit.1 = 2097152 ∧ MemPools.fresh.idleLimit.1 = 2 * 1024 * 1024 := by
  constructor <;> decide

/-- C3, as stated, fails: `setIdleLimit(-1)` on a fresh registry is not
rejected; `idleLimit()` then returns -1 and no longer the previous limit. -/
theorem setIdleLimit_negative_not_rejected :
    (MemPools.fresh.setIdleLimit (-1)).idleLimit.1 = -1 ∧
    (MemPools.fresh.setIdleLimit (-1)).idleLimit.1 ≠ MemPools.fresh.idleLimit.1 := by
  constructor <;> decide

/-- C3, amended: for every negative limit value `n`, `setIdleLimit(n)` stores
`n` like any other value: `idleLimit()` afterwards returns `n`, a negative
number, and the rest of the registry is untouched. -/
theorem setIdleLimit_negative_stored (s : MemPools) (n : Int) (hn : n < 0) :
    (s.setIdleLimit n).idleLimit.1 = n ∧ (s.setIdleLimit n).idleLimit.1 < 0 ∧
    (s.setIdleLimit n).pools = s.pools ∧
    (s.setIdleLimit n).defaultIsChunked = s.defaultIsChunked := by
  exact ⟨rfl, hn, rfl, rfl⟩

/-- Witness of `setIdleLimit_negative_stored` at the limit -4096. -/
theorem setIdleLimit_negative_stored_witness :
    ((-4096 : Int) < 0) ∧
    ((MemPools.fresh.setIdleLimit (-4096)).idleLimit.1 = -4096 ∧
     (MemPools.fresh.setIdleLimit (-4096)).idleLimit.1 < 0 ∧
     (MemPools.fresh.setIdleLimit (-4096)).pools = MemPools.fresh.pools ∧
     (MemPools.fresh.setIdleLimit (-4096)).defaultIsChunked =
       MemPools.fresh.defaultIsChunked) :=
  ⟨by decide, setIdleLimit_negative_stored MemPools.fresh (-4096) (by decide)⟩

/-- C9: `setIdleLimit` changes nothing but the idle limit: `pools` and
`defaultIsChunked` are after `setIdleLimit(n)` what they were before; and
`idleLimit()` leaves the whole registry as it was. -/
theorem setIdleLimit_frame (s : MemPools) (n : Int) :
    (s.setIdleLimit n).pools = s.pools ∧
    (s.setIdleLimit n).defaultIsChunked = s.defaultIsChunked ∧
    s.idleLimit.2 = s := by
  exact ⟨rfl, rfl, rfl⟩

/-! ## The per-chunk object limit -/

/-- A value in the range of the type is stored unchanged. -/
theorem CIntType.wrap_of_inRange (T : CIntType) (hT : 32767 ≤ T.maxVal) (a : Int)
    (hlo : T.minVal ≤ a) (hhi : a ≤ T.maxVal) : T.wrap a = a := by
  cases T with
  | unsignedT w =>
    simp only [CIntType.wrap, CIntType.maxVal, CIntType.minVal] at *
    exact Int.emod_eq_of_lt hlo (by omega)
  | signedT w =>
    simp only [CIntType.wrap, CIntType.maxVal, CIntType.minVal] at *
    have hw : w ≠ 0 := by
      rintro rfl
      norm_num at hT
    have hM : (2 : Int) ^ w = 2 * 2 ^ (w - 1) := by
      obtain ⟨k, rfl⟩ := Nat.exists_eq_succ_of_ne_zero hw
      simp [pow_succ, mul_comm]
    rw [hM, Int.emod_eq_of_lt (by omega) (by omega)]
    omega

/-- Machine addition is addition modulo the width: an intermediate wrap does
not change the final stored value. -/
theorem CIntType.wrap_wrap_add (T : CIntType) (a b : Int) :
    T.wrap (T.wrap a + b) = T.wrap (a + b) := by
  cases T with
  | unsignedT w =>
    simp only [CIntType.wrap]
    exact Int.emod_add_emod a _ b
  | signedT w =>
    simp only [CIntType.wrap]
    have h1 : (a + 2 ^ (w - 1)) % 2 ^ w - 2 ^ (w - 1) + b + 2 ^ (w - 1)
        = (a + 2 ^ (w - 1)) % 2 ^ w + b := by ring
    have h2 : a + b + 2 ^ (w - 1) = a + 2 ^ (w - 1) + b := by ring
    rw [h1, h2, Int.emod_add_emod]

/-- The value `toKB` computes when `size + 1023` is in range. -/
theorem toKB_eq (T : CIntType) (hT : 32767 ≤ T.maxVal) (size : Int)
    (h0 : 0 ≤ size) (hfit : size + 1023 ≤ T.maxVal) :
    toKB T size = (size + 1023) / 1024 := by
  have hmin : T.minVal ≤ 0 := by
    cases T with
    | unsignedT w => simp [CIntType.minVal]
    | signedT w =>
      simp only [CIntType.minVal]
      have : (0 : Int) < 2 ^ (w - 1) := by positivity
      omega
  have hw : T.wrap (T.wrap (size + 1024) - 1) = size + 1023 := by
    have e : T.wrap (size + 1024) - 1 = T.wrap (size + 1024) + (-1) := by ring
    rw [e, CIntType.wrap_wrap_add]
    have e2 : size + 1024 + -1 = size + 1023 := by ring
    rw [e2]
    exact CIntType.wrap_of_inRange T hT _ (by omega) hfit
  unfold toKB
  rw [hw]
  exact Int.tdiv_eq_ediv (by omega) (by norm_num)

/-- C10: `toKB` rounds a byte count up to whole kilobytes.  For an operand
type `T` at least as wide as `int` and non-negative sizes `size ≤ size2` with
`size2 + 1023` representable in `T`: `toKB(size) = (size + 1023) / 1024`, it is
the least `k` with `1024 * k ≥ size`, `toKB` is monotone, and
`toKB(0) = 0`, `toKB(1) = 1`, `toKB(1024) = 1`, `toKB(1025) = 2`. -/
theorem toKB_rounds_up (T : CIntType) (hT : 32767 ≤ T.maxVal) (size size2 : Int)
    (h0 : 0 ≤ size) (hle : size ≤ size2) (hfit : size2 + 1023 ≤ T.maxVal) :
    toKB T size = (size + 1023) / 1024 ∧
    size ≤ 1024 * toKB T size ∧
    (∀ k : Int, size ≤ 1024 * k → toKB T size ≤ k) ∧
    toKB T size ≤ toKB T size2 ∧
    toKB T 0 = 0 ∧ toKB T 1 = 1 ∧ toKB T 1024 = 1 ∧ toKB T 1025 = 2 := by
  have e1 := toKB_eq T hT size h0 (by omega)
  have e2 := toKB_eq T hT size2 (by omega) hfit
  have a0 := toKB_eq T hT 0 (by omega) (by omega)
  have a1 := toKB_eq T hT 1 (by omega) (by omega)
  have a2 := toKB_eq T hT 1024 (by omega) (by omega)
  have a3 := toKB_eq T hT 1025 (by omega) (by omega)
  rw [e1, e2, a0, a1, a2, a3]
  refine ⟨rfl, by omega, ?_, by omega, by norm_num, by norm_num, by norm_num, by norm_num⟩
  intro k hk
  omega

/-- Witness of `toKB_rounds_up` for a 64-bit `size_t` operand, at the sizes
1025 and 4096. -/
theorem toKB_rounds_up_witness :
    (32767 ≤ (CIntType.unsignedT 64).maxVal) ∧ ((0 : Int) ≤ 1025) ∧ ((1025 : Int) ≤ 4096) ∧
    ((4096 : Int) + 1023 ≤ (CIntType.unsignedT 64).maxVal) ∧
    (toKB (CIntType.unsignedT 64) 1025 = (1025 + 1023) / 1024 ∧
     (1025 : Int) ≤ 1024 * toKB (CIntType.unsignedT 64) 1025 ∧
     (∀ k : Int, 1025 ≤ 1024 * k → toKB (CIntType.unsignedT 64) 1025 ≤ k) ∧
     toKB (CIntType.unsignedT 64) 1025 ≤ toKB (CIntType.unsignedT 64) 4096 ∧
     toKB (CIntType.unsignedT 64) 0 = 0 ∧ toKB (CIntType.unsignedT 64) 1 = 1 ∧
     toKB (CIntType.unsignedT 64) 1024 = 1 ∧ toKB (CIntType.unsignedT 64) 1025 = 2) :=
  ⟨by decide, by decide, by decide, by decide,
   toKB_rounds_up (CIntType.unsignedT 64) (by decide) 1025 4096 (by decide) (by decide)
     (by decide)⟩

/-! ## Pool creation -/

/-- A position `findPool` returns names a pool with the label and size asked
for. -/
theorem findPool_some (label : String) (size : Nat) (ps : List MemImplementingAllocator) :
    ∀ (i j : Nat), findPool label size ps i = some j →
      i ≤ j ∧ ∃ p, ps[j - i]? = some p ∧ p.label = label ∧ p.obj_size = size := by
  induction ps with
  | nil => intro i j h; simp [findPool] at h
  | cons p ps ih =>
    intro i j h
    unfold findPool at h
    split at h
    · rename_i hp
      injection h with h
      subst h
      exact ⟨le_refl _, p, by simp, hp.1, hp.2⟩
    · obtain ⟨hle, q, hq, hl, hs⟩ := ih (i + 1) j h
      refine ⟨by omega, q, ?_, hl, hs⟩
      have e : j - i = (j - (i + 1)) + 1 := by omega
      rw [e]
      simpa using hq

/-- The search `findPool` finds nothing exactly when no pool has the label and size. -/
theorem findPool_none (label : String) (size : Nat) (ps : List MemImplementingAllocator) :
    ∀ (i : Nat), findPool label size ps i = none ↔
      ∀ p ∈ ps, ¬ (p.label = label ∧ p.obj_size = size) := by
  induction ps with
  | nil => intro i; simp [findPool]
  | cons p ps ih =>
    intro i
    unfold findPool
    split
    · rename_i hp
      constructor
      · intro h
        cases h
      · intro h
        exact absurd hp (h p (List.mem_cons_self _ _))
    · rename_i hp
      rw [ih (i + 1)]
      simp only [List.mem_cons, forall_eq_or_imp]
      exact ⟨fun h => ⟨hp, h⟩, fun h => h.2⟩

/-- C5: `create(label, size)` on any registry.  If the registry already holds
a pool with that label and size, the registry is returned as it was (so its
pool list does not grow) and the handle names a pool of the list with that
label and size.  Otherwise exactly one pool is appended to the list, it has
that label and size, and the handle names it. -/
theorem create_existing_or_new (cfg : PoolTunables) (s : MemPools) (label : String)
    (size : Nat) :
    ((∃ p ∈ s.pools, p.label = label ∧ p.obj_size = size) →
      (MemPools.create cfg s label size).1 = s ∧
      ∃ p, s.pools[(MemPools.create cfg s label size).2]? = some p ∧
        p.label = label ∧ p.obj_size = size) ∧
    ((¬ ∃ p ∈ s.pools, p.label = label ∧ p.obj_size = size) →
      (MemPools.create cfg s label size).1.pools.length = s.pools.length + 1 ∧
      (MemPools.create cfg s label size).1.pools.take s.pools.length = s.pools ∧
      (MemPools.create cfg s label size).2 = s.pools.length ∧
      ∃ p, (MemPools.create cfg s label size).1.pools[(MemPools.create cfg s label size).2]?
          = some p ∧ p.label = label ∧ p.obj_size = size) := by
  constructor
  · rintro ⟨p, hp, hl, hs⟩
    cases hf : findPool label size s.pools 0 with
    | none =>
      exact absurd ⟨hl, hs⟩ ((findPool_none label size s.pools 0).1 hf p hp)
    | some j =>
      obtain ⟨_, q, hq, hql, hqs⟩ := findPool_some label size s.pools 0 j hf
      have hc : MemPools.create cfg s label size = (s, j) := by
        simp only [MemPools.create, hf]
      rw [hc]
      exact ⟨rfl, q, by simpa using hq, hql, hqs⟩
  · intro hno
    have hf : findPool label size s.pools 0 = none := by
      rw [findPool_none]
      intro p hp h
      exact hno ⟨p, hp, h⟩
    have hc : MemPools.create cfg s label size =
        ({ s with pools := s.pools ++
            [MemImplementingAllocator.new cfg s.defaultIsChunked label size] },
         s.pools.length) := by
      simp only [MemPools.create, hf]
    rw [hc]
    refine ⟨by simp, by simp, rfl, ?_⟩
    exact ⟨MemImplementingAllocator.new cfg s.defaultIsChunked label size, by simp, rfl, rfl⟩

/-- Witness of `create_existing_or_new`: `create("X", 64)` on a registry that
holds the pool ("X", 64), and `create("Y", 64)` on the same registry. -/
theorem create_existing_or_new_witness :
    ((MemPools.create witnessTunables witnessRegistry "X" 64).1 = witnessRegistry ∧
      ∃ p, witnessRegistry.pools[(MemPools.create witnessTunables witnessRegistry "X" 64).2]?
          = some p ∧ p.label = "X" ∧ p.obj_size = 64) ∧
    ((MemPools.create witnessTunables witnessRegistry "Y" 64).1.pools.length
        = witnessRegistry.pools.length + 1 ∧
      (MemPools.create witnessTunables witnessRegistry "Y" 64).1.pools.take
        witnessRegistry.pools.length = witnessRegistry.pools ∧
      (MemPools.create witnessTunables witnessRegistry "Y" 64).2
        = witnessRegistry.pools.length ∧
      ∃ p, (MemPools.create witnessTunables witnessRegistry "Y" 64).1.pools[
            (MemPools.create witnessTunables witnessRegistry "Y" 64).2]?
          = some p ∧ p.label = "Y" ∧ p.obj_size = 64) :=
  ⟨(create_existing_or_new witnessTunables witnessRegistry "X" 64).1
      ⟨MemImplementingAllocator.new witnessTunables false "X" 64, by decide, by decide⟩,
   (create_existing_or_new witnessTunables witnessRegistry "Y" 64).2 (by decide)⟩

/-- C8: `setDefaultPoolChunking(b)` leaves the list of pools, hence the
variant of every pool already created, and the idle limit as they were, and
sets the default to `b`; a pool that the next `create` constructs (its label
and size are not in the registry) is of the variant `b`, and the pools created
before are still what they were. -/
theorem setDefaultPoolChunking_frame (cfg : PoolTunables) (s : MemPools) (b : Bool)
    (label : String) (size : Nat)
    (hnew : ∀ p ∈ s.pools, ¬ (p.label = label ∧ p.obj_size = size)) :
    (s.setDefaultPoolChunking b).pools = s.pools ∧
    (s.setDefaultPoolChunking b).pools.map MemImplementingAllocator.isChunked
      = s.pools.map MemImplementingAllocator.isChunked ∧
    (s.setDefaultPoolChunking b).idleLimit_ = s.idleLimit_ ∧
    (s.setDefaultPoolChunking b).defaultIsChunked = b ∧
    (MemPools.create cfg (s.setDefaultPoolChunking b) label size).1.pools.take s.pools.length
      = s.pools ∧
    ∃ q, (MemPools.create cfg (s.setDefaultPoolChunking b) label size).1.pools[
          (MemPools.create cfg (s.setDefaultPoolChunking b) label size).2]? = some q ∧
      q.isChunked = b ∧ q.label = label ∧ q.obj_size = size := by
  have hf : findPool label size (s.setDefaultPoolChunking b).pools 0 = none := by
    rw [findPool_none]
    exact hnew
  have hc : MemPools.create cfg (s.setDefaultPoolChunking b) label size =
      ({ s with pools := s.pools ++ [MemImplementingAllocator.new cfg b label size],
                defaultIsChunked := b },
       s.pools.length) := by
    simp only [MemPools.create, hf]
    rfl
  rw [hc]
  refine ⟨rfl, rfl, rfl, rfl, by simp, ?_⟩
  refine ⟨MemImplementingAllocator.new cfg b label size, by simp, ?_, rfl, rfl⟩
  cases b <;> rfl

/-- Witness of `setDefaultPoolChunking_frame`: the default is set to chunked
on a registry holding the direct pool ("X", 64), then ("Y", 32) is created. -/
theorem setDefaultPoolChunking_frame_witness :
    (∀ p ∈ witnessRegistry.pools, ¬ (p.label = "Y" ∧ p.obj_size = 32)) ∧
    ((witnessRegistry.setDefaultPoolChunking true).pools = witnessRegistry.pools ∧
     (witnessRegistry.setDefaultPoolChunking true).pools.map MemImplementingAllocator.isChunked
       = witnessRegistry.pools.map MemImplementingAllocator.isChunked ∧
     (witnessRegistry.setDefaultPoolChunking true).idleLimit_ = witnessRegistry.idleLimit_ ∧
     (witnessRegistry.setDefaultPoolChunking true).defaultIsChunked = true ∧
     (MemPools.create witnessTunables (witnessRegistry.setDefaultPoolChunking true)
        "Y" 32).1.pools.take witnessRegistry.pools.length = witnessRegistry.pools ∧
     ∃ q, (MemPools.create witnessTunables (witnessRegistry.setDefaultPoolChunking true)
            "Y" 32).1.pools[
          (MemPools.create witnessTunables (witnessRegistry.setDefaultPoolChunking true)
            "Y" 32).2]? = some q ∧
       q.isChunked = true ∧ q.label = "Y" ∧ q.obj_size = 32) :=
  ⟨by decide,
   setDefaultPoolChunking_frame witnessTunables witnessRegistry true "Y" 32 (by decide)⟩

/-! ## Allocation and release -/

/-- The entry `mostOccupied` picks is one of the list. -/
theorem mostOccupied_mem (l : List (Nat × MemChunk)) (x : Nat × MemChunk)
    (h : mostOccupied l = some x) : x ∈ l := by
  induction l generalizing x with
  | nil => simp [mostOccupied] at h
  | cons y ys ih =>
    unfold mostOccupied at h
    split at h
    · injection h with h
      subst h
      exact List.mem_cons_self _ _
    · rename_i z hz
      split at h
      · injection h with h
        subst h
        exact List.mem_cons_self _ _
      · injection h with h
        subst h
        exact List.mem_cons_of_mem _ (ih z hz)

/-- The chunk scan returns a chunk of the pool that has a free slot. -/
theorem ChunkedState.findFreeChunk_spec (st : ChunkedState) (i : Nat) (c : MemChunk)
    (h : st.findFreeChunk = some (i, c)) : st.chunks[i]? = some c ∧ c.freeList ≠ [] := by
  have hm := mostOccupied_mem _ _ h
  rw [List.mem_filter] at hm
  refine ⟨List.mk_mem_enum_iff_getElem?.1 hm.1, ?_⟩
  intro hnil
  have := hm.2
  simp [hnil] at this

/-- Replacing one element of a list moves the sum of a measure by the
difference of the measures of the two elements. -/
theorem sum_map_set (f : MemChunk → Nat) (l : List MemChunk) :
    ∀ (i : Nat) (c x : MemChunk), l[i]? = some c →
      ((l.set i x).map f).sum + f c = (l.map f).sum + f x := by
  induction l with
  | nil => intro i c x h; simp at h
  | cons y ys ih =>
    intro i c x h
    cases i with
    | zero =>
      simp at h
      subst h
      simp
      omega
    | succ j =>
      simp only [List.getElem?_cons_succ] at h
      have := ih j c x h
      simp only [List.set_cons_succ, List.map_cons, List.sum_cons]
      omega

/-- The call `allocate()` of a chunked pool whose chunks have at least one slot
produces an object, and takes exactly one slot out of the free lists and the
cache, possibly after adding the slots of one new chunk. -/
theorem ChunkedState.allocate_spec (st : ChunkedState) (hcap : 0 < st.chunk_capacity) :
    ∃ st1 o, st.allocate = some (st1, o) ∧
      st1.chunk_capacity = st.chunk_capacity ∧
      st1.totalCapacity + st.totalFree + st.freeCache.length
        = st.totalCapacity + st1.totalFree + st1.freeCache.length + 1 := by
  cases hc : st.freeCache with
  | cons o rest =>
    refine ⟨{ st with freeCache := rest }, o, ?_, rfl, ?_⟩
    · simp only [ChunkedState.allocate, hc]
    · simp only [ChunkedState.totalCapacity, ChunkedState.totalFree, List.length_cons]
      omega
  | nil =>
    cases hf : st.findFreeChunk with
    | some ic =>
      obtain ⟨i, c⟩ := ic
      obtain ⟨hi, hne⟩ := st.findFreeChunk_spec i c hf
      cases hfl : c.freeList with
      | nil => exact absurd hfl hne
      | cons k fl =>
        refine ⟨{ st with chunks := st.chunks.set i { c with freeList := fl } },
          Obj.slot i k, ?_, rfl, ?_⟩
        · simp only [ChunkedState.allocate, hc, hf, hfl]
        have h1 := sum_map_set (fun c => c.capacity) st.chunks i c
          { c with freeList := fl } hi
        have h2 := sum_map_set (fun c => c.freeList.length) st.chunks i c
          { c with freeList := fl } hi
        simp only [hfl, List.length_cons] at h2
        simp only [ChunkedState.totalCapacity, ChunkedState.totalFree, hc, List.length_nil]
        simp only at h1
        omega
    | none =>
      cases hr : List.range st.chunk_capacity with
      | nil =>
        have := congrArg List.length hr
        simp at this
        omega
      | cons k fl =>
        refine ⟨{ st with
            chunks := st.chunks ++ [{ capacity := st.chunk_capacity, freeList := fl }] },
          Obj.slot st.chunks.length k, ?_, rfl, ?_⟩
        · simp only [ChunkedState.allocate, hc, hf, hr]
        have hl := congrArg List.length hr
        simp only [List.length_range, List.length_cons] at hl
        simp only [ChunkedState.totalCapacity, ChunkedState.totalFree, List.map_append,
          List.sum_append, List.map_cons, List.map_nil, List.sum_cons, List.sum_nil,
          hc, List.length_nil]
        omega

/-- The call `deallocate` of a slot whose chunk exists puts exactly one slot back, on
the free list of that chunk or into the cache. -/
theorem ChunkedState.deallocate_spec (st : ChunkedState) (c k : Nat) (a : Bool)
    (ch : MemChunk) (hch : st.chunks[c]? = some ch) :
    (st.deallocate (Obj.slot c k) a).1.chunk_capacity = st.chunk_capacity ∧
    (st.deallocate (Obj.slot c k) a).1.totalCapacity = st.totalCapacity ∧
    (st.deallocate (Obj.slot c k) a).1.totalFree
        + (st.deallocate (Obj.slot c k) a).1.freeCache.length
      = st.totalFree + st.freeCache.length + 1 := by
  unfold ChunkedState.deallocate
  split
  · have h1 := sum_map_set (fun c => c.capacity) st.chunks c ch
      { ch with freeList := k :: ch.freeList } hch
    have h2 := sum_map_set (fun c => c.freeList.length) st.chunks c ch
      { ch with freeList := k :: ch.freeList } hch
    simp only [List.length_cons] at h1 h2
    simp only [ChunkedState.totalCapacity, ChunkedState.totalFree, pushFree, hch]
    refine ⟨trivial, ?_, ?_⟩ <;> omega
  · refine ⟨rfl, rfl, ?_⟩
    simp [ChunkedState.totalFree]
    omega

/-- The call `alloc()` on a pool whose chunks have at least one slot returns an object;
it adds one to `alloc_calls` and leaves `free_calls`, the object size and the
variant. -/
theorem MemImplementingAllocator.alloc_spec (p : MemImplementingAllocator)
    (hs : p.hasSlots) :
    ∃ p1 o, p.alloc = some (p1, o) ∧ p1.hasSlots ∧
      p1.alloc_calls = p.alloc_calls + 1 ∧ p1.free_calls = p.free_calls ∧
      p1.obj_size = p.obj_size ∧ p1.isChunked = p.isChunked ∧
      (p.consistent → p1.consistent) := by
  cases hi : p.impl with
  | chunked st =>
    have hcap : 0 < st.chunk_capacity := by
      simpa only [MemImplementingAllocator.hasSlots, hi] using hs
    obtain ⟨st1, o, hal, hc1, hsum⟩ := st.allocate_spec hcap
    refine ⟨{ p with alloc_calls := p.alloc_calls + 1, meter := p.meter.level 1,
                     impl := PoolImpl.chunked st1 }, o, ?_, ?_, rfl, rfl, rfl, ?_, ?_⟩
    · simp only [MemImplementingAllocator.alloc, hi, hal]
    · simp only [MemImplementingAllocator.hasSlots]
      omega
    · simp only [MemImplementingAllocator.isChunked, hi]
    · intro hcons
      simp only [MemImplementingAllocator.consistent, hi] at hcons
      simp only [MemImplementingAllocator.consistent, PoolMeter.level]
      obtain ⟨h1, h2⟩ := hcons
      constructor
      · push_cast
        omega
      · omega
  | direct st =>
    refine ⟨{ p with alloc_calls := p.alloc_calls + 1, meter := p.meter.level 1,
                     impl := PoolImpl.direct st.allocate.1 }, st.allocate.2,
      ?_, ?_, rfl, rfl, rfl, ?_, ?_⟩
    · simp only [MemImplementingAllocator.alloc, hi]
    · simp only [MemImplementingAllocator.hasSlots]
    · simp only [MemImplementingAllocator.isChunked, hi]
    · intro hcons
      simp only [MemImplementingAllocator.consistent, hi] at hcons
      simp only [MemImplementingAllocator.consistent, PoolMeter.level]
      obtain ⟨h1, _⟩ := hcons
      refine ⟨?_, trivial⟩
      push_cast
      omega

/-- The call `freeOne()` adds one to `free_calls` and leaves `alloc_calls`, the object
size and the variant; applied to an object checked out of the pool it keeps
the bookkeeping consistent. -/
theorem MemImplementingAllocator.freeOne_spec (p : MemImplementingAllocator) (o : Obj)
    (a : Bool) (hs : p.hasSlots) :
    (p.freeOne o a).hasSlots ∧
    (p.freeOne o a).alloc_calls = p.alloc_calls ∧
    (p.freeOne o a).free_calls = p.free_calls + 1 ∧
    (p.freeOne o a).obj_size = p.obj_size ∧
    (p.freeOne o a).isChunked = p.isChunked ∧
    (p.consistent → p.checkedOut o = true → (p.freeOne o a).consistent) := by
  cases hi : p.impl with
  | chunked st =>
    have hcap : 0 < st.chunk_capacity := by
      simpa only [MemImplementingAllocator.hasSlots, hi] using hs
    simp only [MemImplementingAllocator.freeOne, hi]
    refine ⟨?_, trivial, trivial, trivial, ?_, ?_⟩
    · simp only [MemImplementingAllocator.hasSlots]
      unfold ChunkedState.deallocate
      split
      · split <;> exact hcap
      · exact hcap
    · simp only [MemImplementingAllocator.isChunked, hi]
    · intro hcons hout
      simp only [MemImplementingAllocator.consistent, hi] at hcons
      obtain ⟨h1, h2⟩ := hcons
      cases o with
      | raw addr => simp [MemImplementingAllocator.checkedOut, hi] at hout
      | slot c k =>
        cases hch : st.chunks[c]? with
        | none => simp [MemImplementingAllocator.checkedOut, hi, hch] at hout
        | some ch =>
          obtain ⟨_, hcap1, hsum⟩ := st.deallocate_spec c k a ch hch
          simp only [MemImplementingAllocator.consistent, PoolMeter.level]
          constructor
          · push_cast
            omega
          · omega
  | direct st =>
    simp only [MemImplementingAllocator.freeOne, hi]
    refine ⟨?_, trivial, trivial, trivial, ?_, ?_⟩
    · simp only [MemImplementingAllocator.hasSlots]
    · simp only [MemImplementingAllocator.isChunked, hi]
    · intro hcons _
      simp only [MemImplementingAllocator.consistent, hi] at hcons
      simp only [MemImplementingAllocator.consistent, PoolMeter.level]
      obtain ⟨h1, _⟩ := hcons
      refine ⟨?_, trivial⟩
      push_cast
      omega

/-- Counting calls: an `alloc()` in front adds one allocation. -/
theorem allocCalls_cons_alloc (cs : List PoolCall) :
    allocCalls (PoolCall.alloc :: cs) = allocCalls cs + 1 := rfl

/-- Counting calls: an `alloc()` in front adds no free. -/
theorem freeCalls_cons_alloc (cs : List PoolCall) :
    freeCalls (PoolCall.alloc :: cs) = freeCalls cs := rfl

/-- Counting calls: a `freeOne()` in front adds no allocation. -/
theorem allocCalls_cons_freeOne (o : Obj) (a : Bool) (cs : List PoolCall) :
    allocCalls (PoolCall.freeOne o a :: cs) = allocCalls cs := rfl

/-- Counting calls: a `freeOne()` in front adds one free. -/
theorem freeCalls_cons_freeOne (o : Obj) (a : Bool) (cs : List PoolCall) :
    freeCalls (PoolCall.freeOne o a :: cs) = freeCalls cs + 1 := rfl

/-- A sequence of calls on a pool whose chunks have at least one slot runs to
the end; the call counters grow by the number of `alloc()` and of `freeOne()`
calls, and a consistent bookkeeping stays consistent when every `freeOne` is
applied to a checked-out object. -/
theorem runCalls_spec (cs : List PoolCall) :
    ∀ (p : MemImplementingAllocator), p.hasSlots →
      ∃ q, runCalls p cs = some q ∧
        q.alloc_calls = p.alloc_calls + allocCalls cs ∧
        q.free_calls = p.free_calls + freeCalls cs ∧
        q.obj_size = p.obj_size ∧ q.isChunked = p.isChunked ∧
        (p.consistent → wellUsed p cs = true → q.consistent) := by
  induction cs with
  | nil =>
    intro p _
    exact ⟨p, rfl, rfl, rfl, rfl, rfl, fun h _ => h⟩
  | cons c cs ih =>
    intro p hs
    cases c with
    | alloc =>
      obtain ⟨p1, o, hal, hs1, ha, hf, hz, hk, hcons⟩ := p.alloc_spec hs
      obtain ⟨q, hq, qa, qf, qz, qk, qcons⟩ := ih p1 hs1
      refine ⟨q, ?_, ?_, ?_, ?_, ?_, ?_⟩
      · simp only [runCalls, hal, hq]
      · rw [qa, ha, allocCalls_cons_alloc]
        omega
      · rw [qf, hf, freeCalls_cons_alloc]
      · rw [qz, hz]
      · rw [qk, hk]
      · intro hc hw
        simp only [wellUsed, hal] at hw
        exact qcons (hcons hc) hw
    | freeOne o a =>
      obtain ⟨hs1, ha, hf, hz, hk, hcons⟩ := p.freeOne_spec o a hs
      obtain ⟨q, hq, qa, qf, qz, qk, qcons⟩ := ih (p.freeOne o a) hs1
      refine ⟨q, ?_, ?_, ?_, ?_, ?_, ?_⟩
      · simp only [runCalls, hq]
      · rw [qa, ha, allocCalls_cons_freeOne]
      · rw [qf, hf, freeCalls_cons_freeOne]
        omega
      · rw [qz, hz]
      · rw [qk, hk]
      · intro hc hw
        simp only [wellUsed, Bool.and_eq_true] at hw
        exact qcons (hcons hc hw.1) hw.2

/-- A pool just constructed has at least one slot per chunk when the tunable
says so, and its bookkeeping is consistent. -/
theorem MemImplementingAllocator.new_spec (cfg : PoolTunables) (isChunked : Bool)
    (label : String) (size : Nat) (hcap : isChunked = true → 0 < cfg.chunkCapacity size) :
    (MemImplementingAllocator.new cfg isChunked label size).hasSlots ∧
    (MemImplementingAllocator.new cfg isChunked label size).consistent ∧
    (MemImplementingAllocator.new cfg isChunked label size).isChunked = isChunked ∧
    (MemImplementingAllocator.new cfg isChunked label size).alloc_calls = 0 ∧
    (MemImplementingAllocator.new cfg isChunked label size).free_calls = 0 := by
  cases isChunked with
  | true =>
    refine ⟨hcap rfl, ?_, rfl, rfl, rfl⟩
    simp [MemImplementingAllocator.consistent, MemImplementingAllocator.new, PoolMeter.zero,
      ChunkedState.totalFree, ChunkedState.totalCapacity]
  | false =>
    refine ⟨trivial, ?_, rfl, rfl, rfl⟩
    simp [MemImplementingAllocator.consistent, MemImplementingAllocator.new, PoolMeter.zero]

/-- The step of the registry flush: the total absorbs what one pool recorded. -/
theorem PoolMeter.absorb_nothing (t : PoolMeter) (objSize : Nat)
    (h : t.inuse ≤ t.inuseHigh) : t.absorb 0 0 0 objSize = t := by
  cases t
  simp only [PoolMeter.absorb] at *
  simp [h]

/-- After absorbing, the high-water mark is at least the in-use level. -/
theorem PoolMeter.absorb_high (t : PoolMeter) (a f v z : Nat) :
    (t.absorb a f v z).inuse ≤ (t.absorb a f v z).inuseHigh := by
  simp only [PoolMeter.absorb]
  exact le_max_right _ _

/-- Absorbing pools that were just flushed changes nothing. -/
theorem foldl_absorb_flushed (ps : List MemImplementingAllocator) :
    ∀ (t : PoolMeter), t.inuse ≤ t.inuseHigh →
      (ps.map MemImplementingAllocator.flushMeters).foldl
        (fun t p => t.absorb p.alloc_calls p.free_calls p.saved_calls p.obj_size) t = t := by
  induction ps with
  | nil => intro t _; rfl
  | cons p ps ih =>
    intro t h
    simp only [List.map_cons, List.foldl_cons, MemImplementingAllocator.flushMeters]
    rw [PoolMeter.absorb_nothing t _ h]
    exact ih t h

/-- The high-water mark of a total that absorbed pools is at least its in-use
level, when that held before. -/
theorem foldl_absorb_high (ps : List MemImplementingAllocator) :
    ∀ (t : PoolMeter), t.inuse ≤ t.inuseHigh →
      (ps.foldl (fun t p => t.absorb p.alloc_calls p.free_calls p.saved_calls p.obj_size)
          t).inuse ≤
      (ps.foldl (fun t p => t.absorb p.alloc_calls p.free_calls p.saved_calls p.obj_size)
          t).inuseHigh := by
  induction ps with
  | nil => intro t h; exact h
  | cons p ps ih =>
    intro t _
    simp only [List.foldl_cons]
    exact ih _ (PoolMeter.absorb_high _ _ _ _ _)

/-- A second `flushMeters()` right after a first leaves the process-wide total
unchanged, whatever pools the registry holds. -/
theorem MemPools.flushMeters_twice (t : PoolMeter) (s : MemPools) :
    (MemPools.flushMeters (MemPools.flushMeters t s).1 (MemPools.flushMeters t s).2).1
      = (MemPools.flushMeters t s).1 := by
  simp only [MemPools.flushMeters]
  cases hps : s.pools with
  | nil => rfl
  | cons p ps =>
    apply foldl_absorb_flushed
    simp only [List.foldl_cons]
    exact foldl_absorb_high _ _ (PoolMeter.absorb_high _ _ _ _ _)

/-- C7: make any `N` `alloc` and `M` `freeOne` calls, in any order, on a pool
just created (of either variant; chunks have at least one slot) and let it be
the single pool of a registry.  `flushMeters()` then adds exactly `N`
allocations and `M` frees to the process-wide total, so a total that started
at zero shows `N` and `M`; and a second `flushMeters()` with no call in
between leaves the process-wide total unchanged. -/
theorem flushMeters_counts_once (cfg : PoolTunables) (isChunked : Bool) (label : String)
    (size : Nat) (hcap : isChunked = true → 0 < cfg.chunkCapacity size)
    (cs : List PoolCall) :
    ∃ q, runCalls (MemImplementingAllocator.new cfg isChunked label size) cs = some q ∧
      ∀ (s : MemPools) (t : PoolMeter), s.pools = [q] →
        (MemPools.flushMeters t s).1.allocCount = t.allocCount + allocCalls cs ∧
        (MemPools.flushMeters t s).1.freeCount = t.freeCount + freeCalls cs ∧
        (MemPools.flushMeters PoolMeter.zero s).1.allocCount = allocCalls cs ∧
        (MemPools.flushMeters PoolMeter.zero s).1.freeCount = freeCalls cs ∧
        (MemPools.flushMeters (MemPools.flushMeters t s).1 (MemPools.flushMeters t s).2).1
          = (MemPools.flushMeters t s).1 := by
  obtain ⟨hs, _, _, ha, hf⟩ := MemImplementingAllocator.new_spec cfg isChunked label size hcap
  obtain ⟨q, hq, qa, qf, _, _, _⟩ :=
    runCalls_spec cs (MemImplementingAllocator.new cfg isChunked label size) hs
  refine ⟨q, hq, ?_⟩
  intro s t hps
  refine ⟨?_, ?_, ?_, ?_, MemPools.flushMeters_twice t s⟩
  · simp only [MemPools.flushMeters, hps, List.foldl_cons, List.foldl_nil, PoolMeter.absorb]
    omega
  · simp only [MemPools.flushMeters, hps, List.foldl_cons, List.foldl_nil, PoolMeter.absorb]
    omega
  · simp only [MemPools.flushMeters, hps, List.foldl_cons, List.foldl_nil, PoolMeter.absorb,
      PoolMeter.zero]
    omega
  · simp only [MemPools.flushMeters, hps, List.foldl_cons, List.foldl_nil, PoolMeter.absorb,
      PoolMeter.zero]
    omega

/-- Witness of `flushMeters_counts_once` on the chunked pool ("X", 64) with 4
slots per chunk and the calls `witnessCalls`. -/
theorem flushMeters_counts_once_witness :
    (true = true → 0 < witnessTunables.chunkCapacity 64) ∧
    (∃ q, runCalls (MemImplementingAllocator.new witnessTunables true "X" 64) witnessCalls
        = some q ∧
      ∀ (s : MemPools) (t : PoolMeter), s.pools = [q] →
        (MemPools.flushMeters t s).1.allocCount = t.allocCount + allocCalls witnessCalls ∧
        (MemPools.flushMeters t s).1.freeCount = t.freeCount + freeCalls witnessCalls ∧
        (MemPools.flushMeters PoolMeter.zero s).1.allocCount = allocCalls witnessCalls ∧
        (MemPools.flushMeters PoolMeter.zero s).1.freeCount = freeCalls witnessCalls ∧
        (MemPools.flushMeters (MemPools.flushMeters t s).1 (MemPools.flushMeters t s).2).1
          = (MemPools.flushMeters t s).1) :=
  ⟨fun _ => by decide,
   flushMeters_counts_once witnessTunables true "X" 64 (fun _ => by decide) witnessCalls⟩

end Squid
